import Mathlib

/-!
Verification of the pacing and tokenization engine of the zoomerdigest
speed reader (src/src/app/page.tsx).  Strings are modelled as `List Char`;
JavaScript numbers used for durations are modelled as rationals, and the
words-per-minute rate stored by the controller as an integer.
-/

/-- Word-constituent characters, the JavaScript regex class backslash-w:
ASCII letters, ASCII digits and the underscore. -/
def isWordChar (c : Char) : Bool :=
  c.isAlphanum || c = '_'

/-- Length of a word after removing non word-constituent characters,
as in the expression word.replace(...).length of the source. -/
def cleanLength (word : List Char) : Nat :=
  (word.filter isWordChar).length

/-- Embeds getFocalIndex (page.tsx lines 6-18): the 1-based rank of the
focal letter among the word-constituent characters, from the length table. -/
def getFocalIndex (word : List Char) : Nat :=
  if cleanLength word ≤ 2 then 1
  else if cleanLength word ≤ 4 then 2
  else if cleanLength word ≤ 6 then 3
  else if cleanLength word ≤ 9 then 4
  else if cleanLength word ≤ 13 then 5
  else 6

/-- Embeds getPauseMultiplier (page.tsx lines 26-31): multiplier chosen by
the trailing character, first match wins. -/
def getPauseMultiplier (word : List Char) : ℚ :=
  match word.getLast? with
  | some c =>
    if c = '.' ∨ c = '!' ∨ c = '?' then 3 / 2
    else if c = ';' ∨ c = ':' then 6 / 5
    else if c = ',' then 11 / 10
    else 1
  | none => 1

/-- Absolute indices of the word-constituent characters of a word, in
order: the letterPositions array built by the scan loop of splitWord
(page.tsx lines 50-62). -/
def wordCharPositions : List Char → List Nat
  | [] => []
  | c :: cs =>
    if isWordChar c then 0 :: (wordCharPositions cs).map (· + 1)
    else (wordCharPositions cs).map (· + 1)

/-- Embeds splitWord (page.tsx lines 35-75).  If the word has no
word-constituent character it is split at the midpoint; otherwise it is
split at the position of the getFocalIndex-th word-constituent character,
falling back to the first such position when the scan does not reach the
target rank. -/
def splitWord (word : List Char) : List Char × List Char × List Char :=
  if cleanLength word = 0 then
    let m := word.length / 2
    (word.take m, (word.drop m).take 1, word.drop (m + 1))
  else
    let ps := wordCharPositions word
    let focalPos :=
      match ps.get? (getFocalIndex word - 1) with
      | some p => p
      | none => ps.headD 0
    (word.take focalPos, (word.drop focalPos).take 1, word.drop (focalPos + 1))

/-- Embeds getWordDelay (page.tsx lines 100-104): per-word display
duration in milliseconds for a given words-per-minute rate. -/
def getWordDelay (speed : ℚ) (word : List Char) : ℚ :=
  (60 / speed) * 1000 * getPauseMultiplier word

/-- Embeds calculateRemainingTime (page.tsx lines 245-250): ceiling, in
seconds, of the summed delays of the units strictly after the current
index; zero at or past the last unit and for the empty sequence. -/
def calculateRemainingTime (speed : ℚ) (words : List (List Char))
    (currentIndex : Nat) : ℤ :=
  if words.length = 0 ∨ words.length - 1 ≤ currentIndex then 0
  else
    let remainingWords := words.drop (currentIndex + 1)
    let totalMs := remainingWords.foldl (fun acc w => acc + getWordDelay speed w) 0
    ⌈totalMs / 1000⌉

/-- Sum of the delays of the units strictly after a given index, in
milliseconds: the exact quantity whose ceiling calculateRemainingTime
reports. -/
def msRemaining (speed : ℚ) (words : List (List Char)) (i : Nat) : ℚ :=
  ((words.drop (i + 1)).map (getWordDelay speed)).sum

lemma foldl_add_eq_sum (f : List Char → ℚ) :
    ∀ (l : List (List Char)) (a : ℚ),
      l.foldl (fun acc w => acc + f w) a = a + (l.map f).sum := by
  intro l
  induction l with
  | nil => intro a; simp
  | cons x xs ih =>
    intro a
    simp [List.foldl_cons, ih, add_assoc]

lemma calculateRemainingTime_eq_ceil (speed : ℚ) (words : List (List Char))
    (i : Nat) :
    calculateRemainingTime speed words i = ⌈msRemaining speed words i / 1000⌉ := by
  unfold calculateRemainingTime msRemaining
  split
  · rename_i h
    have hnil : words.drop (i + 1) = [] := by
      rcases h with h | h
      · exact List.drop_eq_nil_of_le (by omega)
      · exact List.drop_eq_nil_of_le (by omega)
    rw [hnil]
    simp
  · simp [foldl_add_eq_sum]

lemma take_focal_drop (word : List Char) (p : Nat) :
    word.take p ++ ((word.drop p).take 1 ++ word.drop (p + 1)) = word := by
  have h1 : word.drop (p + 1) = (word.drop p).drop 1 := by
    rw [List.drop_drop]
  rw [h1, List.take_append_drop, List.take_append_drop]

lemma length_wordCharPositions (w : List Char) :
    (wordCharPositions w).length = cleanLength w := by
  induction w with
  | nil => rfl
  | cons c cs ih =>
    by_cases h : isWordChar c <;>
      simp [wordCharPositions, cleanLength, List.filter_cons, h] at ih ⊢ <;>
      omega

lemma mem_wordCharPositions_lt (w : List Char) :
    ∀ p ∈ wordCharPositions w, p < w.length := by
  induction w with
  | nil => simp [wordCharPositions]
  | cons c cs ih =>
    intro p hp
    by_cases h : isWordChar c <;> simp [wordCharPositions, h] at hp
    · rcases hp with rfl | ⟨q, hq, rfl⟩
      · simp
      · have := ih q hq
        simp
        omega
    · rcases hp with ⟨q, hq, rfl⟩
      have := ih q hq
      simp
      omega

lemma getFocalIndex_le (w : List Char) (h : 1 ≤ cleanLength w) :
    getFocalIndex w ≤ cleanLength w ∧ 1 ≤ getFocalIndex w := by
  unfold getFocalIndex
  split_ifs <;> omega

lemma focal_get?_eq_some (w : List Char) (h : 1 ≤ cleanLength w) :
    ∃ p, (wordCharPositions w).get? (getFocalIndex w - 1) = some p := by
  have h1 := getFocalIndex_le w h
  have h2 : getFocalIndex w - 1 < (wordCharPositions w).length := by
    rw [length_wordCharPositions]
    omega
  exact ⟨_, List.get?_eq_get h2⟩

/-- Rank table exactly as written in the specification text, on the count
n of word-constituent characters. -/
def specRank (n : Nat) : Nat :=
  if n ≤ 2 then 1
  else if n ≤ 4 then 2
  else if n ≤ 6 then 3
  else if n ≤ 9 then 4
  else if n ≤ 13 then 5
  else 6

/-- Reference splitter, following the specification text only: when the
unit has word-constituent characters the focal index is the absolute
position of the character whose running count of word-constituent
characters equals the rank given by the table, and the unit is cut
strictly before and after that position; when it has none the unit is
split at the midpoint index.  Returns none if the scan fails to reach the
target rank, a case the specification asserts cannot occur. -/
def splitWordRef (word : List Char) : Option (List Char × List Char × List Char) :=
  if cleanLength word = 0 then
    some (word.take (word.length / 2), (word.drop (word.length / 2)).take 1,
      word.drop (word.length / 2 + 1))
  else
    match (wordCharPositions word).get? (specRank (cleanLength word) - 1) with
    | some p => some (word.take p, (word.drop p).take 1, word.drop (p + 1))
    | none => none

lemma getFocalIndex_eq_specRank (w : List Char) :
    getFocalIndex w = specRank (cleanLength w) := rfl

/-- C1: splitWord agrees with the specification's reference definition of
the focal split on every display unit, both when the unit has
word-constituent characters and on the midpoint fallback. -/
theorem splitWord_matches_spec (word : List Char) :
    splitWordRef word = some (splitWord word) := by
  unfold splitWordRef splitWord
  by_cases h0 : cleanLength word = 0
  · simp [h0]
  · have h1 : 1 ≤ cleanLength word := by omega
    obtain ⟨p, hp⟩ := focal_get?_eq_some word h1
    have hp2 : (wordCharPositions word)[getFocalIndex word - 1]? = some p := by
      rw [← List.get?_eq_getElem?]
      exact hp
    simp [h0, ← getFocalIndex_eq_specRank, hp2]

/-- C3: for every display unit, concatenating the before part, the focal
part and the after part of splitWord reconstructs the unit exactly. -/
theorem splitWord_roundTrip (word : List Char) :
    (splitWord word).1 ++ (splitWord word).2.1 ++ (splitWord word).2.2 = word := by
  rw [List.append_assoc]
  unfold splitWord
  split
  · exact take_focal_drop word _
  · exact take_focal_drop word _

/-- C10: on a unit with at least one word-constituent character the target
rank never exceeds the count of such characters, the scan always finds a
focal position (so the not-found fallback of splitWord is unreachable),
and that position is strictly inside the unit, so no out-of-bounds read
occurs. -/
theorem splitWord_total_safe (word : List Char) (h : 1 ≤ cleanLength word) :
    getFocalIndex word ≤ cleanLength word ∧
    ∃ p, (wordCharPositions word).get? (getFocalIndex word - 1) = some p ∧
      p < word.length ∧
      splitWord word = (word.take p, (word.drop p).take 1, word.drop (p + 1)) := by
  obtain ⟨p, hp⟩ := focal_get?_eq_some word h
  refine ⟨(getFocalIndex_le word h).1, p, hp, ?_, ?_⟩
  · exact mem_wordCharPositions_lt word p (List.get?_mem hp)
  · unfold splitWord
    have h0 : ¬ cleanLength word = 0 := by omega
    have hp2 : (wordCharPositions word)[getFocalIndex word - 1]? = some p := by
      rw [← List.get?_eq_getElem?]
      exact hp
    simp [h0, hp2]

theorem splitWord_total_safe_witness :
    1 ≤ cleanLength ("ab".toList) ∧
    (getFocalIndex ("ab".toList) ≤ cleanLength ("ab".toList) ∧
     ∃ p, (wordCharPositions ("ab".toList)).get? (getFocalIndex ("ab".toList) - 1) = some p ∧
       p < ("ab".toList).length ∧
       splitWord ("ab".toList) =
         (("ab".toList).take p, (("ab".toList).drop p).take 1, ("ab".toList).drop (p + 1))) :=
  ⟨by decide, splitWord_total_safe ("ab".toList) (by decide)⟩

/-- C2: for every unit and every rate in the interval from 100 to 1000,
getWordDelay equals the base (60 / rate) * 1000 scaled by the
trailing-character multiplier in priority order, is positive, and meets
the quoted values at rate 300. -/
theorem getWordDelay_spec (word : List Char) (rate : ℚ)
    (h1 : 100 ≤ rate) (h2 : rate ≤ 1000) :
    getWordDelay rate word =
      (60 / rate) * 1000 *
        (if word.getLast? = some '.' ∨ word.getLast? = some '!' ∨
            word.getLast? = some '?' then 3 / 2
         else if word.getLast? = some ';' ∨ word.getLast? = some ':' then 6 / 5
         else if word.getLast? = some ',' then 11 / 10
         else 1) ∧
    0 < getWordDelay rate word ∧
    getWordDelay 300 ("end.".toList) = 300 ∧
    getWordDelay 300 ("word,".toList) = 220 ∧
    getWordDelay 300 ("word".toList) = 200 := by
  have hm1 : getPauseMultiplier ("end.".toList) = 3 / 2 := rfl
  have hm2 : getPauseMultiplier ("word,".toList) = 11 / 10 := rfl
  have hm3 : getPauseMultiplier ("word".toList) = 1 := rfl
  have he1 : getWordDelay 300 ("end.".toList) = 300 := by
    unfold getWordDelay
    rw [hm1]
    norm_num
  have he2 : getWordDelay 300 ("word,".toList) = 220 := by
    unfold getWordDelay
    rw [hm2]
    norm_num
  have he3 : getWordDelay 300 ("word".toList) = 200 := by
    unfold getWordDelay
    rw [hm3]
    norm_num
  refine ⟨?_, ?_, he1, he2, he3⟩
  · unfold getWordDelay getPauseMultiplier
    cases h : word.getLast? with
    | none => simp [h]
    | some c => simp [h]
  · have hr : (0 : ℚ) < rate := by linarith
    have hb : (0 : ℚ) < (60 / rate) * 1000 := by positivity
    have hm : (0 : ℚ) < getPauseMultiplier word := by
      unfold getPauseMultiplier
      rcases word.getLast? with _ | c
      · norm_num
      · dsimp only
        split_ifs <;> norm_num
    exact mul_pos hb hm

theorem getWordDelay_spec_witness :
    ((100 : ℚ) ≤ 300 ∧ (300 : ℚ) ≤ 1000) ∧
    (getWordDelay 300 ("end.".toList) =
      (60 / 300) * 1000 *
        (if ("end.".toList).getLast? = some '.' ∨ ("end.".toList).getLast? = some '!' ∨
            ("end.".toList).getLast? = some '?' then 3 / 2
         else if ("end.".toList).getLast? = some ';' ∨
            ("end.".toList).getLast? = some ':' then 6 / 5
         else if ("end.".toList).getLast? = some ',' then 11 / 10
         else 1) ∧
     0 < getWordDelay 300 ("end.".toList) ∧
     getWordDelay 300 ("end.".toList) = 300 ∧
     getWordDelay 300 ("word,".toList) = 220 ∧
     getWordDelay 300 ("word".toList) = 200) :=
  ⟨⟨by norm_num, by norm_num⟩,
   getWordDelay_spec ("end.".toList) 300 (by norm_num) (by norm_num)⟩

/-- C5: calculateRemainingTime equals the ceiling of the summed delays of
the units strictly after the index divided by 1000, and is zero whenever
the sequence is empty or the index is at or after the last unit. -/
theorem calculateRemainingTime_spec (speed : ℚ) (words : List (List Char)) (i : Nat) :
    calculateRemainingTime speed words i =
      ⌈((words.drop (i + 1)).map (getWordDelay speed)).sum / 1000⌉ ∧
    (words = [] ∨ words.length - 1 ≤ i → calculateRemainingTime speed words i = 0) := by
  constructor
  · exact calculateRemainingTime_eq_ceil speed words i
  · intro h
    unfold calculateRemainingTime
    rw [if_pos]
    rcases h with h | h
    · exact Or.inl (by simp [h])
    · exact Or.inr h

theorem calculateRemainingTime_spec_witness :
    (calculateRemainingTime 300 ["a".toList] 0 =
      ⌈((["a".toList].drop (0 + 1)).map (getWordDelay 300)).sum / 1000⌉) ∧
    calculateRemainingTime 300 ["a".toList] 0 = 0 :=
  ⟨(calculateRemainingTime_spec 300 ["a".toList] 0).1,
   (calculateRemainingTime_spec 300 ["a".toList] 0).2 (Or.inr (by decide))⟩

/-- Whitespace characters of the JavaScript regex class backslash-s, the
same set used by String.prototype.trim: ASCII whitespace, no-break space,
the Unicode space separators, the line separators and the byte order
mark. -/
def isJsSpace (c : Char) : Bool :=
  c = ' ' || c = '\t' || c = '\n' || c = '\r' ||
  c.toNat = 0x0b || c.toNat = 0x0c || c.toNat = 0xa0 || c.toNat = 0x1680 ||
  (0x2000 ≤ c.toNat && c.toNat ≤ 0x200a) ||
  c.toNat = 0x2028 || c.toNat = 0x2029 || c.toNat = 0x202f ||
  c.toNat = 0x205f || c.toNat = 0x3000 || c.toNat = 0xfeff

/-- Separator characters of the split regex of parseText: whitespace or
hyphen. -/
def isSep (c : Char) : Bool :=
  isJsSpace c || c = '-'

/-- Embeds String.prototype.trim: remove leading and trailing whitespace. -/
def jsTrim (s : List Char) : List Char :=
  ((s.dropWhile isJsSpace).reverse.dropWhile isJsSpace).reverse

/-- Split on maximal runs of characters satisfying p, keeping the empty
pieces produced at the ends, as String.prototype.split does with a
one-or-more character-class regex. -/
def jsSplitRuns (p : Char → Bool) (s : List Char) : List (List Char) :=
  match h : s.dropWhile (fun c => !p c) with
  | [] => [s.takeWhile (fun c => !p c)]
  | _ :: rest => s.takeWhile (fun c => !p c) :: jsSplitRuns p (rest.dropWhile p)
termination_by s.length
decreasing_by
  have h1 : (s.dropWhile (fun c => !p c)).length ≤ s.length :=
    (List.dropWhile_sublist _).length_le
  have h2 : (rest.dropWhile p).length ≤ rest.length :=
    (List.dropWhile_sublist _).length_le
  rw [h] at h1
  simp at h1
  omega

/-- Embeds parseText (page.tsx lines 90-97): trim, split on runs of
whitespace or hyphens, drop the empty pieces. -/
def parseText (text : List Char) : List (List Char) :=
  (jsSplitRuns isSep (jsTrim text)).filter (fun w => !w.isEmpty)

/-- Maximal runs of characters not satisfying p, in order. -/
def runsOf (p : Char → Bool) (s : List Char) : List (List Char) :=
  match s with
  | [] => []
  | c :: cs =>
    if p c then runsOf p cs
    else (c :: cs.takeWhile (fun d => !p d)) ::
      runsOf p (cs.dropWhile (fun d => !p d))
termination_by s.length
decreasing_by
  · simp
  · have h2 : (cs.dropWhile (fun d => !p d)).length ≤ cs.length :=
      (List.dropWhile_sublist _).length_le
    simp
    omega

/-- Tokenization as the specification describes it: trimming, splitting
on maximal separator runs and discarding empty strings leaves exactly the
maximal runs of non-separator characters of the input, in order. -/
def tokenizeSpec (s : List Char) : List (List Char) :=
  runsOf isSep s

lemma runsOf_nil (p : Char → Bool) : runsOf p [] = [] := by
  rw [runsOf.eq_def]

lemma runsOf_cons_pos (p : Char → Bool) (c : Char) (cs : List Char) (h : p c = true) :
    runsOf p (c :: cs) = runsOf p cs := by
  rw [runsOf.eq_def]
  simp [h]

lemma runsOf_cons_neg (p : Char → Bool) (c : Char) (cs : List Char) (h : p c = false) :
    runsOf p (c :: cs) =
      (c :: cs.takeWhile (fun d => !p d)) :: runsOf p (cs.dropWhile (fun d => !p d)) := by
  rw [runsOf.eq_def]
  simp [h]

lemma runsOf_dropWhile (p : Char → Bool) (s : List Char) :
    runsOf p (s.dropWhile p) = runsOf p s := by
  induction s with
  | nil => simp
  | cons c cs ih =>
    by_cases h : p c = true
    · rw [List.dropWhile_cons_of_pos h, ih, runsOf_cons_pos p c cs h]
    · rw [List.dropWhile_cons_of_neg (by simp_all)]

lemma runsOf_all_pos (p : Char → Bool) (w : List Char) (h : ∀ c ∈ w, p c = true) :
    runsOf p w = [] := by
  induction w with
  | nil => exact runsOf_nil p
  | cons c cs ih =>
    rw [runsOf_cons_pos p c cs (h c (by simp))]
    exact ih (fun d hd => h d (by simp [hd]))

lemma takeWhile_append_all_pos (p : Char → Bool) (v w : List Char)
    (h : ∀ c ∈ w, p c = true) :
    (v ++ w).takeWhile (fun d => !p d) = v.takeWhile (fun d => !p d) := by
  induction v with
  | nil =>
    cases w with
    | nil => simp
    | cons d ds =>
      simp only [List.nil_append, List.takeWhile_nil]
      rw [List.takeWhile_cons_of_neg (by simp [h d (by simp)])]
  | cons a v' ih =>
    by_cases ha : p a = true
    · rw [List.cons_append, List.takeWhile_cons_of_neg (by simp [ha]),
        List.takeWhile_cons_of_neg (by simp [ha])]
    · rw [List.cons_append, List.takeWhile_cons_of_pos (by simp_all),
        List.takeWhile_cons_of_pos (by simp_all), ih]

lemma dropWhile_append_all_pos (p : Char → Bool) (v w : List Char)
    (h : ∀ c ∈ w, p c = true) :
    (v ++ w).dropWhile (fun d => !p d) = v.dropWhile (fun d => !p d) ++ w := by
  induction v with
  | nil =>
    cases w with
    | nil => simp
    | cons d ds =>
      simp only [List.nil_append, List.dropWhile_nil]
      rw [List.dropWhile_cons_of_neg (by simp [h d (by simp)])]
  | cons a v' ih =>
    by_cases ha : p a = true
    · rw [List.cons_append, List.dropWhile_cons_of_neg (by simp [ha]),
        List.dropWhile_cons_of_neg (by simp [ha])]
      rfl
    · rw [List.cons_append, List.dropWhile_cons_of_pos (by simp_all),
        List.dropWhile_cons_of_pos (by simp_all), ih]

lemma runsOf_append_pos_fuel (p : Char → Bool) :
    ∀ (n : Nat) (v w : List Char), v.length ≤ n → (∀ c ∈ w, p c = true) →
      runsOf p (v ++ w) = runsOf p v := by
  intro n
  induction n with
  | zero =>
    intro v w hv hw
    have hv0 : v = [] := by
      cases v with
      | nil => rfl
      | cons a v' => simp at hv
    subst hv0
    rw [runsOf_nil, List.nil_append, runsOf_all_pos p w hw]
  | succ n ih =>
    intro v w hv hw
    cases v with
    | nil => rw [runsOf_nil, List.nil_append, runsOf_all_pos p w hw]
    | cons a v' =>
      by_cases ha : p a = true
      · rw [List.cons_append, runsOf_cons_pos p a _ ha, runsOf_cons_pos p a v' ha]
        refine ih v' w ?_ hw
        simp at hv
        omega
      · have ha2 : p a = false := by simp_all
        rw [List.cons_append, runsOf_cons_neg p a _ ha2, runsOf_cons_neg p a v' ha2,
          takeWhile_append_all_pos p v' w hw, dropWhile_append_all_pos p v' w hw]
        have hlen : (v'.dropWhile (fun d => !p d)).length ≤ n := by
          have h1 : (v'.dropWhile (fun d => !p d)).length ≤ v'.length :=
            (List.dropWhile_sublist _).length_le
          simp at hv
          omega
        rw [ih _ w hlen hw]

lemma jsSplitRuns_of_nil (p : Char → Bool) (s : List Char)
    (h : s.dropWhile (fun c => !p c) = []) :
    jsSplitRuns p s = [s.takeWhile (fun c => !p c)] := by
  rw [jsSplitRuns.eq_def]
  split
  · rfl
  · rename_i d rest heq
    rw [h] at heq
    cases heq

lemma jsSplitRuns_of_cons (p : Char → Bool) (s : List Char) (d : Char) (rest : List Char)
    (h : s.dropWhile (fun c => !p c) = d :: rest) :
    jsSplitRuns p s = s.takeWhile (fun c => !p c) :: jsSplitRuns p (rest.dropWhile p) := by
  rw [jsSplitRuns.eq_def]
  split
  · rename_i heq
    rw [h] at heq
    cases heq
  · rename_i d2 rest2 heq
    rw [h] at heq
    cases heq
    rfl

lemma dropWhile_eq_cons_head (q : Char → Bool) (l : List Char) (d : Char) (rest : List Char)
    (h : l.dropWhile q = d :: rest) : q d = false := by
  induction l with
  | nil => simp at h
  | cons a t ih =>
    by_cases ha : q a = true
    · rw [List.dropWhile_cons_of_pos ha] at h
      exact ih h
    · rw [List.dropWhile_cons_of_neg (by simp_all)] at h
      cases h
      simp_all

lemma filter_jsSplitRuns_fuel (p : Char → Bool) :
    ∀ (n : Nat) (s : List Char), s.length ≤ n →
      (jsSplitRuns p s).filter (fun w => !w.isEmpty) = runsOf p s := by
  intro n
  induction n with
  | zero =>
    intro s hs
    have hs0 : s = [] := by
      cases s with
      | nil => rfl
      | cons a t => simp at hs
    subst hs0
    rw [jsSplitRuns_of_nil p [] (by simp)]
    simp [runsOf_nil]
  | succ n ih =>
    intro s hs
    cases s with
    | nil =>
      rw [jsSplitRuns_of_nil p [] (by simp)]
      simp [runsOf_nil]
    | cons c cs =>
      by_cases hc : p c = true
      · have hd : (c :: cs).dropWhile (fun x => !p x) = c :: cs :=
          List.dropWhile_cons_of_neg (by simp [hc])
        have ht : (c :: cs).takeWhile (fun x => !p x) = [] :=
          List.takeWhile_cons_of_neg (by simp [hc])
        rw [jsSplitRuns_of_cons p (c :: cs) c cs hd, ht]
        have hlen : (cs.dropWhile p).length ≤ n := by
          have h1 : (cs.dropWhile p).length ≤ cs.length :=
            (List.dropWhile_sublist _).length_le
          simp at hs
          omega
        rw [List.filter_cons]
        simp only [List.isEmpty_nil, Bool.not_true, Bool.false_eq_true, if_false]
        rw [ih _ hlen, runsOf_dropWhile, runsOf_cons_pos p c cs hc]
      · have hc2 : p c = false := by simp_all
        have hP : (fun x : Char => !p x) c = true := by simp [hc2]
        have ht : (c :: cs).takeWhile (fun x => !p x) = c :: cs.takeWhile (fun x => !p x) :=
          List.takeWhile_cons_of_pos hP
        have hd : (c :: cs).dropWhile (fun x => !p x) = cs.dropWhile (fun x => !p x) :=
          List.dropWhile_cons_of_pos hP
        cases hdw : cs.dropWhile (fun x => !p x) with
        | nil =>
          rw [jsSplitRuns_of_nil p (c :: cs) (by rw [hd, hdw]), ht,
            runsOf_cons_neg p c cs hc2, hdw, runsOf_nil]
          simp
        | cons d rest =>
          have hpd : p d = true := by
            have := dropWhile_eq_cons_head (fun x => !p x) cs d rest hdw
            simp at this
            exact this
          rw [jsSplitRuns_of_cons p (c :: cs) d rest (by rw [hd, hdw]), ht,
            List.filter_cons]
          simp only [List.isEmpty_cons, Bool.not_false, if_true]
          have hlen : (rest.dropWhile p).length ≤ n := by
            have h1 : (rest.dropWhile p).length ≤ rest.length :=
              (List.dropWhile_sublist _).length_le
            have h2 : (cs.dropWhile (fun x => !p x)).length ≤ cs.length :=
              (List.dropWhile_sublist _).length_le
            rw [hdw] at h2
            simp at h2 hs
            omega
          rw [ih _ hlen, runsOf_dropWhile, runsOf_cons_neg p c cs hc2, hdw,
            runsOf_cons_pos p d rest hpd]

lemma runsOf_dropWhile_subset (p q : Char → Bool)
    (hpq : ∀ c, q c = true → p c = true) (s : List Char) :
    runsOf p (s.dropWhile q) = runsOf p s := by
  induction s with
  | nil => simp
  | cons c cs ih =>
    by_cases h : q c = true
    · rw [List.dropWhile_cons_of_pos h, ih, runsOf_cons_pos p c cs (hpq c h)]
    · rw [List.dropWhile_cons_of_neg (by simp_all)]

lemma isJsSpace_isSep (c : Char) (h : isJsSpace c = true) : isSep c = true := by
  simp [isSep, h]

lemma parseText_eq_runsOf (text : List Char) :
    parseText text = runsOf isSep text := by
  unfold parseText jsTrim
  rw [filter_jsSplitRuns_fuel isSep _ _ (le_refl _)]
  set u := text.dropWhile isJsSpace with hu
  have hsplit : u = (u.reverse.dropWhile isJsSpace).reverse ++
      (u.reverse.takeWhile isJsSpace).reverse := by
    have h1 : u.reverse.takeWhile isJsSpace ++ u.reverse.dropWhile isJsSpace = u.reverse :=
      List.takeWhile_append_dropWhile isJsSpace u.reverse
    calc u = u.reverse.reverse := (List.reverse_reverse u).symm
    _ = (u.reverse.takeWhile isJsSpace ++ u.reverse.dropWhile isJsSpace).reverse := by
        rw [h1]
    _ = (u.reverse.dropWhile isJsSpace).reverse ++ (u.reverse.takeWhile isJsSpace).reverse := by
        rw [List.reverse_append]
  have hall : ∀ c ∈ (u.reverse.takeWhile isJsSpace).reverse, isSep c = true := by
    intro c hc
    rw [List.mem_reverse] at hc
    exact isJsSpace_isSep c (List.mem_takeWhile_imp hc)
  have htrimRight : runsOf isSep ((u.reverse.dropWhile isJsSpace).reverse) = runsOf isSep u := by
    conv_rhs => rw [hsplit]
    exact (runsOf_append_pos_fuel isSep _ _ _ (le_refl _) hall).symm
  rw [htrimRight, hu, runsOf_dropWhile_subset isSep isJsSpace isJsSpace_isSep]

/-- C4: parseText trims the input, splits on every maximal run of
whitespace or hyphen characters and discards the empty pieces, which is
exactly tokenizeSpec, the maximal runs of non-separator characters kept
verbatim (so no punctuation other than the separators is removed); and it
meets the quoted examples, with a blank or whitespace-only input giving
the empty sequence. -/
theorem parseText_spec :
    (∀ text, parseText text = tokenizeSpec text) ∧
    parseText ("a-b  c".toList) = ["a".toList, "b".toList, "c".toList] ∧
    parseText ("  ".toList) = [] ∧
    parseText ("".toList) = [] := by
  have hgen : ∀ text, parseText text = tokenizeSpec text := by
    intro text
    rw [parseText_eq_runsOf]
    rfl
  refine ⟨hgen, ?_, ?_, ?_⟩
  · rw [parseText_eq_runsOf]
    have h1 : "a-b  c".toList = ['a', '-', 'b', ' ', ' ', 'c'] := rfl
    have h2 : "a".toList = ['a'] := rfl
    have h3 : "b".toList = ['b'] := rfl
    have h4 : "c".toList = ['c'] := rfl
    rw [h1, h2, h3, h4]
    simp +decide [runsOf_cons_pos, runsOf_cons_neg, runsOf_nil]
  · rw [parseText_eq_runsOf]
    have h1 : "  ".toList = [' ', ' '] := rfl
    rw [h1]
    simp +decide [runsOf_cons_pos, runsOf_cons_neg, runsOf_nil]
  · rw [parseText_eq_runsOf]
    have h1 : "".toList = ([] : List Char) := rfl
    rw [h1, runsOf_nil]

/-- Controller state of the reader component (page.tsx lines 78-87): the
word sequence, the current index, the playing flag, the words-per-minute
rate and the pending countdown value. -/
structure PlaybackState where
  words : List (List Char)
  currentIndex : Nat
  isPlaying : Bool
  speed : ℤ
  countdown : Option Nat
deriving DecidableEq

/-- User commands and internal timer events handled by the component. -/
inductive Event where
  | start (text : List Char)
  | toggle
  | stop
  | reset
  | adjustRate (delta : ℤ)
  | skipCountdown
  | countdownTick
  | advanceTick
deriving DecidableEq

/-- One transition of the controller.  start embeds handleStart (page.tsx
lines 197-205, also the Resume and Play buttons at 326 and 594), toggle
embeds togglePlay (107-110), stop embeds handleStop (230-233), reset
embeds handleReset (235-239), adjustRate embeds adjustSpeed (113-119),
skipCountdown embeds the countdown-skip paths (132-135 and 512-515),
countdownTick embeds the countdown effect (213-228) and advanceTick
embeds the firing of the per-word timeout (169-195), which is armed only
while playing with the index in range. -/
def step (s : PlaybackState) (e : Event) : PlaybackState :=
  match e with
  | .start text =>
    if jsTrim text ≠ [] then
      { s with
        words := parseText text,
        currentIndex := 0,
        isPlaying := false,
        countdown := some 3 }
    else s
  | .toggle =>
    if s.words.length = 0 then s
    else { s with isPlaying := !s.isPlaying }
  | .stop => { s with isPlaying := false, countdown := none }
  | .reset => { s with isPlaying := false, currentIndex := 0, words := [] }
  | .adjustRate delta => { s with speed := max 100 (min 1000 (s.speed + delta)) }
  | .skipCountdown =>
    if s.countdown.isSome then { s with countdown := none, isPlaying := true }
    else s
  | .countdownTick =>
    match s.countdown with
    | some (n + 1) => { s with countdown := some n }
    | some 0 => { s with countdown := none, isPlaying := true }
    | none => s
  | .advanceTick =>
    if s.isPlaying = true ∧ s.words.length ≠ 0 ∧ s.currentIndex < s.words.length then
      if s.words.length - 1 ≤ s.currentIndex then { s with isPlaying := false }
      else { s with currentIndex := s.currentIndex + 1 }
    else s

/-- Initial component state (page.tsx lines 78-83). -/
def initState : PlaybackState :=
  { words := [], currentIndex := 0, isPlaying := false, speed := 300, countdown := none }

/-- State after a sequence of events starting from the initial state. -/
def runEvents (evs : List Event) : PlaybackState :=
  evs.foldl step initState

lemma step_speed (s : PlaybackState) (e : Event) :
    (step s e).speed = s.speed ∨
      ∃ delta, e = .adjustRate delta ∧
        (step s e).speed = max 100 (min 1000 (s.speed + delta)) := by
  cases e with
  | start text =>
    left
    simp only [step]
    split <;> rfl
  | toggle =>
    left
    simp only [step]
    split <;> rfl
  | stop =>
    left
    simp only [step]
  | reset =>
    left
    simp only [step]
  | adjustRate d =>
    right
    exact ⟨d, rfl, by simp only [step]⟩
  | skipCountdown =>
    left
    simp only [step]
    split <;> rfl
  | countdownTick =>
    left
    simp only [step]
    split <;> rfl
  | advanceTick =>
    left
    simp only [step]
    split
    · split <;> rfl
    · rfl

/-- C9: adjustRate clamps the rate into the interval from 100 to 1000, no
other event changes the rate, and after every event sequence from the
initial state the rate lies in that interval. -/
theorem rate_invariant :
    (∀ evs, 100 ≤ (runEvents evs).speed ∧ (runEvents evs).speed ≤ 1000) ∧
    (∀ s delta, (step s (.adjustRate delta)).speed =
      max 100 (min 1000 (s.speed + delta))) ∧
    (∀ s e, (∀ delta, e ≠ .adjustRate delta) → (step s e).speed = s.speed) := by
  have hstep : ∀ s e, 100 ≤ s.speed → s.speed ≤ 1000 →
      100 ≤ (step s e).speed ∧ (step s e).speed ≤ 1000 := by
    intro s e h1 h2
    rcases step_speed s e with h | ⟨d, _, h⟩
    · rw [h]
      exact ⟨h1, h2⟩
    · rw [h]
      constructor
      · exact le_max_left _ _
      · refine max_le (by norm_num) (min_le_left _ _)
  refine ⟨?_, fun s delta => by simp only [step], ?_⟩
  · intro evs
    suffices h : ∀ (evs : List Event) (s : PlaybackState), 100 ≤ s.speed →
        s.speed ≤ 1000 →
        100 ≤ (evs.foldl step s).speed ∧ (evs.foldl step s).speed ≤ 1000 by
      refine h evs initState (by norm_num [initState]) (by norm_num [initState])
    intro evs
    induction evs with
    | nil => intro s h1 h2; exact ⟨h1, h2⟩
    | cons e evs ih =>
      intro s h1 h2
      rw [List.foldl_cons]
      obtain ⟨g1, g2⟩ := hstep s e h1 h2
      exact ih (step s e) g1 g2
  · intro s e he
    rcases step_speed s e with h | ⟨d, hd, _⟩
    · exact h
    · exact absurd hd (he d)

theorem rate_invariant_witness :
    (100 ≤ (runEvents [.adjustRate 2000]).speed ∧
      (runEvents [.adjustRate 2000]).speed ≤ 1000) ∧
    (step initState (.adjustRate 2000)).speed =
      max 100 (min 1000 (initState.speed + 2000)) ∧
    (step initState .toggle).speed = initState.speed :=
  ⟨rate_invariant.1 [.adjustRate 2000],
   rate_invariant.2.1 initState 2000,
   rate_invariant.2.2 initState .toggle (fun delta h => by cases h)⟩

lemma step_position (s : PlaybackState) (e : Event)
    (h : s.words ≠ [] → s.currentIndex < s.words.length) :
    (step s e).words ≠ [] → (step s e).currentIndex < (step s e).words.length := by
  cases e with
  | start text =>
    simp only [step]
    split
    · intro hw
      simp only at hw ⊢
      exact List.length_pos.mpr hw
    · exact h
  | toggle =>
    simp only [step]
    split
    · exact h
    · exact h
  | stop => exact h
  | reset =>
    simp only [step]
    intro hw
    exact absurd rfl hw
  | adjustRate d => exact h
  | skipCountdown =>
    simp only [step]
    split
    · exact h
    · exact h
  | countdownTick =>
    simp only [step]
    split
    · exact h
    · exact h
    · exact h
  | advanceTick =>
    simp only [step]
    split
    · rename_i hg
      obtain ⟨hp, hw0, hlt⟩ := hg
      split
      · exact fun _ => hlt
      · rename_i hge
        intro _
        simp only
        omega
    · exact h

/-- C8: after every event sequence from the initial state the current
position is strictly within bounds whenever the word sequence is
non-empty, and when the per-word timer fires while playing at the last
index the controller stops playing without moving the position past the
last unit. -/
theorem position_invariant :
    (∀ evs, (runEvents evs).words ≠ [] →
      (runEvents evs).currentIndex < (runEvents evs).words.length) ∧
    (∀ s, s.isPlaying = true → s.words ≠ [] →
      s.currentIndex = s.words.length - 1 →
      (step s .advanceTick).isPlaying = false ∧
      (step s .advanceTick).currentIndex = s.currentIndex) := by
  constructor
  · intro evs
    suffices h : ∀ (evs : List Event) (s : PlaybackState),
        (s.words ≠ [] → s.currentIndex < s.words.length) →
        ((evs.foldl step s).words ≠ [] →
          (evs.foldl step s).currentIndex < (evs.foldl step s).words.length) by
      refine h evs initState ?_
      intro hw
      exact absurd rfl hw
    intro evs
    induction evs with
    | nil => intro s hs; exact hs
    | cons e evs ih =>
      intro s hs
      rw [List.foldl_cons]
      exact ih (step s e) (step_position s e hs)
  · intro s hp hw hidx
    have hlen : 0 < s.words.length := List.length_pos.mpr hw
    have hguard : s.isPlaying = true ∧ s.words.length ≠ 0 ∧
        s.currentIndex < s.words.length := ⟨hp, by omega, by omega⟩
    simp only [step]
    rw [if_pos hguard, if_pos (by omega)]
    exact ⟨rfl, rfl⟩

lemma parseText_ab : parseText ("a b".toList) = [['a'], ['b']] := by
  rw [parseText_eq_runsOf]
  have h1 : "a b".toList = ['a', ' ', 'b'] := rfl
  rw [h1]
  simp +decide [runsOf_cons_pos, runsOf_cons_neg, runsOf_nil]

lemma parseText_abc : parseText ("a b c".toList) = [['a'], ['b'], ['c']] := by
  rw [parseText_eq_runsOf]
  have h1 : "a b c".toList = ['a', ' ', 'b', ' ', 'c'] := rfl
  rw [h1]
  simp +decide [runsOf_cons_pos, runsOf_cons_neg, runsOf_nil]

lemma runEvents_ab :
    runEvents [.start ("a b".toList), .skipCountdown] =
      { words := [['a'], ['b']],
        currentIndex := 0,
        isPlaying := true,
        speed := 300,
        countdown := none } := by
  have h1 : step initState (.start ("a b".toList)) =
      { words := [['a'], ['b']],
        currentIndex := 0,
        isPlaying := false,
        speed := 300,
        countdown := some 3 } := by
    simp only [step]
    rw [if_pos (by decide), parseText_ab]
    rfl
  unfold runEvents
  rw [List.foldl_cons, h1]
  decide

theorem position_invariant_witness :
    ((runEvents [.start ("a b".toList), .skipCountdown]).words ≠ [] ∧
     (runEvents [.start ("a b".toList), .skipCountdown]).currentIndex <
       (runEvents [.start ("a b".toList), .skipCountdown]).words.length) ∧
    ((step { words := [['a']],
             currentIndex := 0,
             isPlaying := true,
             speed := 300,
             countdown := none } .advanceTick).isPlaying = false ∧
     (step { words := [['a']],
             currentIndex := 0,
             isPlaying := true,
             speed := 300,
             countdown := none } .advanceTick).currentIndex = 0) := by
  constructor
  · have hw : (runEvents [.start ("a b".toList), .skipCountdown]).words ≠ [] := by
      rw [runEvents_ab]
      decide
    exact ⟨hw, position_invariant.1 [.start ("a b".toList), .skipCountdown] hw⟩
  · exact position_invariant.2
      { words := [['a']],
        currentIndex := 0,
        isPlaying := true,
        speed := 300,
        countdown := none } rfl (by decide) (by decide)

/-- State reached by starting a session on the text "a b c", skipping the
countdown, letting the per-word timer advance once and toggling to pause:
a Paused state in the middle of a non-empty sequence. -/
def pausedMidState : PlaybackState :=
  runEvents [.start ("a b c".toList), .skipCountdown, .advanceTick, .toggle]

lemma pausedMidState_eq :
    pausedMidState =
      { words := [['a'], ['b'], ['c']],
        currentIndex := 1,
        isPlaying := false,
        speed := 300,
        countdown := none } := by
  have h1 : step initState (.start ("a b c".toList)) =
      { words := [['a'], ['b'], ['c']],
        currentIndex := 0,
        isPlaying := false,
        speed := 300,
        countdown := some 3 } := by
    simp only [step]
    rw [if_pos (by decide), parseText_abc]
    rfl
  unfold pausedMidState runEvents
  rw [List.foldl_cons, h1]
  decide

/-- C6 evaluation: in a Paused state mid-sequence, the toggle command
resumes in place (Playing, same position, same words, no countdown), but
the explicit start-equivalent resume command (the Resume and Play buttons
call handleStart) re-tokenizes, resets the position to 0, arms a new
3-tick countdown and does not enter Playing: it restarts the session and
the countdown instead of resuming. -/
theorem resume_restarts_session :
    (pausedMidState.isPlaying = false ∧ pausedMidState.countdown = none ∧
     pausedMidState.currentIndex = 1 ∧ pausedMidState.words ≠ []) ∧
    ((step pausedMidState .toggle).isPlaying = true ∧
     (step pausedMidState .toggle).currentIndex = pausedMidState.currentIndex ∧
     (step pausedMidState .toggle).words = pausedMidState.words ∧
     (step pausedMidState .toggle).countdown = none) ∧
    ((step pausedMidState (.start ("a b c".toList))).isPlaying = false ∧
     (step pausedMidState (.start ("a b c".toList))).currentIndex = 0 ∧
     (step pausedMidState (.start ("a b c".toList))).countdown = some 3) := by
  refine ⟨?_, ?_, ?_⟩
  · rw [pausedMidState_eq]
    exact ⟨rfl, rfl, rfl, by decide⟩
  · rw [pausedMidState_eq]
    exact ⟨by decide, by decide, by decide, by decide⟩
  · rw [pausedMidState_eq]
    simp only [step]
    rw [if_pos (by decide)]
    exact ⟨rfl, rfl, rfl⟩

lemma getPauseMultiplier_pos (word : List Char) : 0 < getPauseMultiplier word := by
  unfold getPauseMultiplier
  rcases word.getLast? with _ | c
  · norm_num
  · dsimp only
    split_ifs <;> norm_num

lemma getWordDelay_pos (speed : ℚ) (word : List Char) (h : 0 < speed) :
    0 < getWordDelay speed word := by
  unfold getWordDelay
  have hb : (0 : ℚ) < (60 / speed) * 1000 := by positivity
  exact mul_pos hb (getPauseMultiplier_pos word)

lemma getWordDelay_bUnit : getWordDelay 300 ['b'] = 200 := by
  have hm : getPauseMultiplier ['b'] = 1 := rfl
  unfold getWordDelay
  rw [hm]
  norm_num

lemma getWordDelay_cUnit : getWordDelay 300 ['c'] = 200 := by
  have hm : getPauseMultiplier ['c'] = 1 := rfl
  unfold getWordDelay
  rw [hm]
  norm_num

lemma crt_abc_0 : calculateRemainingTime 300 [['a'], ['b'], ['c']] 0 = 1 := by
  rw [calculateRemainingTime_eq_ceil]
  have hm : msRemaining 300 [['a'], ['b'], ['c']] 0 = 400 := by
    unfold msRemaining
    simp [getWordDelay_bUnit, getWordDelay_cUnit]
    norm_num
  rw [hm]
  norm_num [Int.ceil_eq_iff]

lemma crt_abc_1 : calculateRemainingTime 300 [['a'], ['b'], ['c']] 1 = 1 := by
  rw [calculateRemainingTime_eq_ceil]
  have hm : msRemaining 300 [['a'], ['b'], ['c']] 1 = 200 := by
    unfold msRemaining
    simp [getWordDelay_cUnit]
  rw [hm]
  norm_num [Int.ceil_eq_iff]

/-- C7 counterexample: with units "a" "b" "c" at rate 300 the reported
remaining time is 1 second both at position 0 and at position 1, so when
the position advances from 0 to 1 while playing it decreases by 0, not by
the 200 millisecond delay of the new current unit (nor by that delay
expressed in seconds). -/
theorem remainingTime_exact_decrease_cex :
    calculateRemainingTime 300 [['a'], ['b'], ['c']] 0 -
      calculateRemainingTime 300 [['a'], ['b'], ['c']] 1 = 0 ∧
    getWordDelay 300 ['b'] = 200 ∧
    ((calculateRemainingTime 300 [['a'], ['b'], ['c']] 0 -
      calculateRemainingTime 300 [['a'], ['b'], ['c']] 1 : ℤ) : ℚ) ≠
      getWordDelay 300 ['b'] ∧
    ((calculateRemainingTime 300 [['a'], ['b'], ['c']] 0 -
      calculateRemainingTime 300 [['a'], ['b'], ['c']] 1 : ℤ) : ℚ) ≠
      getWordDelay 300 ['b'] / 1000 := by
  rw [crt_abc_0, crt_abc_1, getWordDelay_bUnit]
  norm_num

/-- C7 amended: while playing, each advance of the position by one
decreases the exact remaining total of delays in milliseconds by
precisely the delay of the new current unit, and the reported remaining
seconds, being a ceiling of that total, never increase across the
advance. -/
theorem remainingTime_decrease_amended (speed : ℚ) (words : List (List Char))
    (i : Nat) (hs : 100 ≤ speed) (hi : i + 1 < words.length) :
    msRemaining speed words i =
      getWordDelay speed (words.getD (i + 1) []) + msRemaining speed words (i + 1) ∧
    calculateRemainingTime speed words (i + 1) ≤ calculateRemainingTime speed words i := by
  have hdrop : words.drop (i + 1) = words[i + 1] :: words.drop (i + 2) :=
    List.drop_eq_getElem_cons hi
  have hgetD : words.getD (i + 1) [] = words[i + 1] := by
    simp [List.getD_eq_getElem?_getD, List.getElem?_eq_getElem hi]
  have h1 : msRemaining speed words i =
      getWordDelay speed (words.getD (i + 1) []) + msRemaining speed words (i + 1) := by
    unfold msRemaining
    rw [hdrop, hgetD, List.map_cons, List.sum_cons]
  refine ⟨h1, ?_⟩
  rw [calculateRemainingTime_eq_ceil, calculateRemainingTime_eq_ceil]
  apply Int.ceil_mono
  apply (div_le_div_iff_of_pos_right (by norm_num : (0 : ℚ) < 1000)).mpr
  rw [h1]
  have hpos : 0 < getWordDelay speed (words.getD (i + 1) []) :=
    getWordDelay_pos speed _ (by linarith)
  linarith

theorem remainingTime_decrease_amended_witness :
    msRemaining 300 [['a'], ['b'], ['c']] 0 =
      getWordDelay 300 ([['a'], ['b'], ['c']].getD (0 + 1) []) +
        msRemaining 300 [['a'], ['b'], ['c']] (0 + 1) ∧
    calculateRemainingTime 300 [['a'], ['b'], ['c']] (0 + 1) ≤
      calculateRemainingTime 300 [['a'], ['b'], ['c']] 0 :=
  remainingTime_decrease_amended 300 [['a'], ['b'], ['c']] 0 (by norm_num) (by norm_num)
